import Mathlib

/-!
Verification development for the GCN link-prediction pipeline
(`Graph_Convolutional_Prediction_of_Protein_Interactions.ipynb`).

The Python source is shallowly embedded: adjacency matrices become functions
`ℕ → ℕ → ℕ` together with a node count `n` (only indices below `n` are read);
the randomness consumed by `np.random.shuffle` and `np.random.randint` becomes
explicit parameters (a permutation of the edge indices, and streams of
candidate node pairs); the rejection-sampling `while` loops become a
stream-consuming recursion that returns `none` when the supplied stream is
exhausted before enough negatives were accepted.  Real-valued tensor
computations are embedded over `ℝ` (`ℚ` mirrors are kept where decidable
evaluation is needed).
-/

namespace GCN

/-- Diagonal stripping, `adj - sp.dia_matrix(adj.diagonal())` followed by
`eliminate_zeros()` in `mask_test_edges`: the result has zero diagonal and is
unchanged elsewhere. -/
def adjNoDiag (adj : ℕ → ℕ → ℕ) (i j : ℕ) : ℕ :=
  if i = j then 0 else adj i j

/-- Coordinates of the upper triangle, `sparse_to_tuple(sp.triu(adj))[0]`:
the row-major list of pairs `(i, j)` with `i ≤ j` and a nonzero entry. -/
def triuEdges (n : ℕ) (a : ℕ → ℕ → ℕ) : List (ℕ × ℕ) :=
  (List.range n).flatMap (fun i =>
    ((List.range n).filter (fun j => decide (i ≤ j ∧ a i j ≠ 0))).map (fun j => (i, j)))

/-- Coordinates of all nonzero entries, `sparse_to_tuple(adj)[0]`
(`edges_all` in `mask_test_edges`), in row-major order. -/
def allCoords (n : ℕ) (a : ℕ → ℕ → ℕ) : List (ℕ × ℕ) :=
  (List.range n).flatMap (fun i =>
    ((List.range n).filter (fun j => decide (a i j ≠ 0))).map (fun j => (i, j)))

/-- The rejection check of the `test_edges_false` loop: a candidate pair is
skipped when it is a self-loop, appears in `edges_all`, or appears (in either
orientation) among the already accepted test negatives.  (The `if
test_edges_false:` guard in the source only skips a vacuous membership test on
an empty list, so it is not modelled separately.) -/
def testReject (edgesAll : List (ℕ × ℕ)) (p : ℕ × ℕ) (acc : List (ℕ × ℕ)) : Bool :=
  decide (p.1 = p.2) || edgesAll.contains p ||
    acc.contains (p.2, p.1) || acc.contains p

/-- The rejection check of the `val_edges_false` loop: a candidate pair is
skipped when it is a self-loop, appears in either orientation in
`train_edges` or `val_edges`, or appears in either orientation among the
already accepted validation negatives.  Note that `test_edges` is *not*
consulted. -/
def valReject (trainE valE : List (ℕ × ℕ)) (p : ℕ × ℕ) (acc : List (ℕ × ℕ)) : Bool :=
  decide (p.1 = p.2) ||
    trainE.contains p || trainE.contains (p.2, p.1) ||
    valE.contains p || valE.contains (p.2, p.1) ||
    acc.contains (p.2, p.1) || acc.contains p

/-- The rejection-sampling `while` loop of `mask_test_edges`: candidates from
`stream` (the values drawn by `np.random.randint`) are accepted into the
accumulator unless `reject`ed, until `target` pairs have been collected.
`none` models a run whose supplied randomness ends before the loop does. -/
def sampleNeg (reject : ℕ × ℕ → List (ℕ × ℕ) → Bool) (target : ℕ) :
    List (ℕ × ℕ) → List (ℕ × ℕ) → Option (List (ℕ × ℕ))
  | acc, [] => if target ≤ acc.length then some acc else none
  | acc, p :: rest =>
    if target ≤ acc.length then some acc
    else if reject p acc then sampleNeg reject target acc rest
    else sampleNeg reject target (acc ++ [p]) rest

/-- The edge lists returned by `mask_test_edges` (the rebuilt training
adjacency `adj_train` is recovered separately by `adjTrainOf`). -/
structure SplitResult where
  trainEdges : List (ℕ × ℕ)
  valEdges : List (ℕ × ℕ)
  valEdgesFalse : List (ℕ × ℕ)
  testEdges : List (ℕ × ℕ)
  testEdgesFalse : List (ℕ × ℕ)
deriving DecidableEq

/-- The local `edges` of `mask_test_edges`: the unique undirected edges,
read off the upper triangle of the diagonal-stripped adjacency. -/
def splitEdges (n : ℕ) (adj : ℕ → ℕ → ℕ) : List (ℕ × ℕ) :=
  triuEdges n (adjNoDiag adj)

/-- `num_test = num_val = int(np.floor(edges.shape[0] / 50.))` in
`mask_test_edges` (both are computed by the same expression). -/
def numSplit (n : ℕ) (adj : ℕ → ℕ → ℕ) : ℕ :=
  (splitEdges n adj).length / 50

/-- `val_edge_idx = all_edge_idx[:num_val]` after shuffling. -/
def valIdxOf (n : ℕ) (adj : ℕ → ℕ → ℕ) (perm : List ℕ) : List ℕ :=
  perm.take (numSplit n adj)

/-- `test_edge_idx = all_edge_idx[num_val:(num_val + num_test)]`. -/
def testIdxOf (n : ℕ) (adj : ℕ → ℕ → ℕ) (perm : List ℕ) : List ℕ :=
  (perm.drop (numSplit n adj)).take (numSplit n adj)

/-- `val_edges = edges[val_edge_idx]`. -/
def valEdgesOf (n : ℕ) (adj : ℕ → ℕ → ℕ) (perm : List ℕ) : List (ℕ × ℕ) :=
  (valIdxOf n adj perm).filterMap (fun k => (splitEdges n adj)[k]?)

/-- `test_edges = edges[test_edge_idx]`. -/
def testEdgesOf (n : ℕ) (adj : ℕ → ℕ → ℕ) (perm : List ℕ) : List (ℕ × ℕ) :=
  (testIdxOf n adj perm).filterMap (fun k => (splitEdges n adj)[k]?)

/-- `train_edges = np.delete(edges, np.hstack([test_edge_idx, val_edge_idx]),
axis=0)`: the edges whose index is in neither reserved index set, in order. -/
def trainEdgesOf (n : ℕ) (adj : ℕ → ℕ → ℕ) (perm : List ℕ) : List (ℕ × ℕ) :=
  ((List.range (splitEdges n adj).length).filter
    (fun k => decide (¬ (k ∈ testIdxOf n adj perm ∨ k ∈ valIdxOf n adj perm)))).filterMap
    (fun k => (splitEdges n adj)[k]?)

/-- `mask_test_edges(adj)`.  `perm` is the permutation of `range(len(edges))`
produced by `np.random.shuffle`; `testStream` and `valStream` are the node
pairs drawn by `np.random.randint` in the two negative-sampling loops. -/
def maskTestEdges (n : ℕ) (adj : ℕ → ℕ → ℕ) (perm : List ℕ)
    (testStream valStream : List (ℕ × ℕ)) : Option SplitResult :=
  match sampleNeg (testReject (allCoords n (adjNoDiag adj)))
      (testEdgesOf n adj perm).length [] testStream with
  | none => none
  | some testF =>
    match sampleNeg (valReject (trainEdgesOf n adj perm) (valEdgesOf n adj perm))
        (valEdgesOf n adj perm).length [] valStream with
    | none => none
    | some valF =>
      some ⟨trainEdgesOf n adj perm, valEdgesOf n adj perm, valF,
        testEdgesOf n adj perm, testF⟩

/-- The rebuilt training adjacency `adj_train + adj_train.T` of
`mask_test_edges` (a CSR matrix with an entry of `1` per training edge,
symmetrized). -/
def adjTrainOf (trainE : List (ℕ × ℕ)) (i j : ℕ) : ℕ :=
  (if trainE.contains (i, j) then 1 else 0) + (if trainE.contains (j, i) then 1 else 0)

/-- Self-loop augmentation in `preprocess_graph`: `adj_ = adj + sp.eye(n)`. -/
def adjSelf (adj : ℕ → ℕ → ℕ) (i j : ℕ) : ℕ :=
  adj i j + (if i = j then 1 else 0)

/-- Row sums of the self-loop-augmented adjacency:
`rowsum = np.array(adj_.sum(1))` in `preprocess_graph`. -/
def rowsumSelf (n : ℕ) (adj : ℕ → ℕ → ℕ) (i : ℕ) : ℕ :=
  ∑ j ∈ Finset.range n, adjSelf adj i j

/-- Entry `(i, j)` of the normalized adjacency produced by `preprocess_graph`:
`adj_.dot(D).transpose().dot(D)` with `D = diags(rowsum ** -0.5)`, that is
`(A+I)ᵀ[i,j] · rowsum[i]^(-1/2) · rowsum[j]^(-1/2)`.  (The final
`sparse_to_tuple` conversion to COO coordinates is a representation detail and
is not modelled; the claims are about the matrix itself.) -/
noncomputable def normAdjEntry (n : ℕ) (adj : ℕ → ℕ → ℕ) (i j : ℕ) : ℝ :=
  (adjSelf adj j i : ℝ) /
    (Real.sqrt (rowsumSelf n adj i) * Real.sqrt (rowsumSelf n adj j))

/-- The Glorot half-range `init_range = np.sqrt(6.0 / (input_dim + output_dim))`
of `weight_variable_glorot`. -/
noncomputable def glorotRange (inputDim outputDim : ℕ) : ℝ :=
  Real.sqrt (6 / ((inputDim : ℝ) + outputDim))

/-- Entry `(i, j)` of the initial weight matrix built by
`weight_variable_glorot`: `tf.random_uniform([input_dim, output_dim],
minval=-init_range, maxval=init_range)`.  The uniform draw is modelled by
`u i j ∈ [0,1)` with the value `minval + u·(maxval - minval)`. -/
noncomputable def weightVariableGlorot (inputDim outputDim : ℕ)
    (u : ℕ → ℕ → ℝ) (i j : ℕ) : ℝ :=
  -glorotRange inputDim outputDim +
    u i j * (glorotRange inputDim outputDim - -glorotRange inputDim outputDim)

/-- Dense dropout `tf.nn.dropout(x, keep_prob)`: each entry is kept (and
rescaled by `1/keep_prob`) when `floor(keep_prob + u) ≥ 1`, i.e. when
`1 ≤ keep_prob + u` for a uniform draw `u ∈ [0,1)`, and zeroed otherwise. -/
noncomputable def dropoutDense (keepProb : ℝ) (u : ℕ → ℕ → ℝ)
    (x : ℕ → ℕ → ℝ) (i j : ℕ) : ℝ :=
  if 1 ≤ keepProb + u i j then x i j / keepProb else 0

/-- Entry `(i, j)` of the Gram matrix `inputs · inputsᵀ` computed by
`InnerProductDecoder.__call__` for an `n × k` embedding matrix. -/
noncomputable def gramEntry (k : ℕ) (e : ℕ → ℕ → ℝ) (i j : ℕ) : ℝ :=
  ∑ t ∈ Finset.range k, e i t * e j t

/-- Row-major flattening `tf.reshape(x, [-1])` of an `n × n` matrix. -/
noncomputable def flattenSq (n : ℕ) (m : ℕ → ℕ → ℝ) : List ℝ :=
  (List.range n).flatMap (fun i => (List.range n).map (fun j => m i j))

/-- The logistic sigmoid `tf.nn.sigmoid` (also the local `sigmoid` helper of
`get_roc_score`). -/
noncomputable def sigmoidR (x : ℝ) : ℝ := 1 / (1 + Real.exp (-x))

/-- `InnerProductDecoder.__call__`: apply dense dropout with
`keep_prob = 1 - dropout` to the embeddings, form the `n × n` Gram matrix
`E_drop · E_dropᵀ`, flatten it row-major, and apply the activation `act`. -/
noncomputable def innerProductDecoder (act : ℝ → ℝ) (dropout : ℝ)
    (u : ℕ → ℕ → ℝ) (n k : ℕ) (inputs : ℕ → ℕ → ℝ) : List ℝ :=
  (flattenSq n (gramEntry k (dropoutDense (1 - dropout) u inputs))).map act

/-- The decoder exactly as instantiated in `GCNModel.build`:
`InnerProductDecoder(..., act=lambda x: x)` applied to the embeddings, with
the constructor's default `dropout=0.`.  This is `model.reconstructions`. -/
noncomputable def reconstructionsGCN (n k : ℕ) (u : ℕ → ℕ → ℝ)
    (embeddings : ℕ → ℕ → ℝ) : List ℝ :=
  innerProductDecoder (fun x => x) 0 u n k embeddings

/-- `num_edges = adj.sum()` computed in cell 15 on the **original, unsplit**
adjacency matrix: the sum of all its entries. -/
def adjSumOrig (n : ℕ) (adj : ℕ → ℕ → ℕ) : ℕ :=
  ∑ i ∈ Finset.range n, ∑ j ∈ Finset.range n, adj i j

/-- `pos_weight = float(num_nodes**2 - num_edges) / num_edges` from
`Optimizer.__init__` (exact rational mirror of the float computation). -/
def posWeightQ (numNodes numEdges : ℕ) : ℚ :=
  ((numNodes : ℚ) ^ 2 - numEdges) / numEdges

/-- `norm = num_nodes**2 / float((num_nodes**2 - num_edges) * 2)` from
`Optimizer.__init__`. -/
def normQ (numNodes numEdges : ℕ) : ℚ :=
  (numNodes : ℚ) ^ 2 / ((((numNodes : ℚ) ^ 2 - numEdges)) * 2)

/-- `tf.nn.weighted_cross_entropy_with_logits(logits=l, targets=z,
pos_weight=q)`, mathematically `(1-z)·l + (1+(q-1)·z)·log(1+exp(-l))`. -/
noncomputable def weightedCE (posW logit target : ℝ) : ℝ :=
  (1 - target) * logit + (1 + (posW - 1) * target) * Real.log (1 + Real.exp (-logit))

/-- `tf.reduce_mean` over a flattened tensor. -/
noncomputable def meanR (l : List ℝ) : ℝ := l.sum / l.length

/-- `Optimizer.cost`: `norm * reduce_mean(weighted_cross_entropy_with_logits(
logits=preds, targets=labels, pos_weight=pos_weight))`. -/
noncomputable def optimizerCost (numNodes numEdges : ℕ)
    (logits targets : List ℝ) : ℝ :=
  (normQ numNodes numEdges : ℝ) *
    meanR (List.zipWith
      (fun l z => weightedCE (posWeightQ numNodes numEdges : ℝ) l z) logits targets)

/-- The training loss as wired up in cells 15–16: the `Optimizer` is built
with `num_nodes = adj.shape[0]` and `num_edges = adj.sum()` taken from the
original unsplit adjacency. -/
noncomputable def pipelineCost (n : ℕ) (adj : ℕ → ℕ → ℕ)
    (logits targets : List ℝ) : ℝ :=
  optimizerCost n (adjSumOrig n adj) logits targets

/-- The training label matrix `adj_label = adj_train + sp.eye(n)` of cell 17,
rebuilt from the training edges. -/
def adjLabel (trainE : List (ℕ × ℕ)) (i j : ℕ) : ℕ :=
  adjTrainOf trainE i j + (if i = j then 1 else 0)

/-- The number of entries set in the flattened training label matrix
(`adj_train + self-loops`), the quantity the specification calls `E`. -/
def labelEntries (n : ℕ) (trainE : List (ℕ × ℕ)) : ℕ :=
  ∑ i ∈ Finset.range n, ∑ j ∈ Finset.range n,
    (if adjLabel trainE i j ≠ 0 then 1 else 0)

/-- The label vector built by `get_roc_score`:
`np.hstack([np.ones(len(preds)), np.zeros(len(preds))])` — **both** block
lengths are `len(preds) = len(edges_pos)`. -/
def rocLabels (edgesPos : List (ℕ × ℕ)) : List ℚ :=
  List.replicate edgesPos.length 1 ++ List.replicate edgesPos.length 0

/-- The score vector built by `get_roc_score`:
`np.hstack([preds, preds_neg])`, where each edge `e` is scored by
`sigmoid(adj_rec[e[0], e[1]])` on the embedding Gram matrix. -/
noncomputable def rocPreds (k : ℕ) (emb : ℕ → ℕ → ℝ)
    (edgesPos edgesNeg : List (ℕ × ℕ)) : List ℝ :=
  edgesPos.map (fun e => sigmoidR (gramEntry k emb e.1 e.2)) ++
    edgesNeg.map (fun e => sigmoidR (gramEntry k emb e.1 e.2))

/-- One execution prefix of the training `while` loop of cell 17, with
`fuel = FLAGS.epochs - epoch` remaining epochs, `e` the number of iterations
already executed, and `t = temp_train_loss`.  `loss m` is the training loss
`avg_cost` reported by the `m`-th executed iteration (1-based; the loop binds
`temp_train_loss = avg_cost` at the end of each iteration).  Returns how many
further iterations execute. -/
def trainGo (loss : ℕ → ℚ) : ℕ → ℕ → ℚ → ℕ
  | 0, _, _ => 0
  | fuel + 1, e, t =>
    if 1 / 1000 < t then trainGo loss fuel (e + 1) (loss (e + 1)) + 1 else 0

/-- Total number of iterations executed by the training loop
`while (epoch < FLAGS.epochs) and (temp_train_loss > 0.001)`, starting from
`epoch = 0` and `temp_train_loss = 1.0`. -/
def trainIters (epochs : ℕ) (loss : ℕ → ℚ) : ℕ :=
  trainGo loss epochs 0 1

/-- The value of `temp_train_loss` observed by the loop guard before
iteration `k+1`: the initial `1.0` when `k = 0`, and the loss reported by
iteration `k` otherwise. -/
def tempAt (loss : ℕ → ℚ) (k : ℕ) : ℚ :=
  if k = 0 then 1 else loss k

/-! ### Helper lemmas on lists and on the sampling loop -/

theorem length_filterMap_getElem {α : Type*} (l : List α) :
    ∀ (idxs : List ℕ), (∀ k ∈ idxs, k < l.length) →
      (idxs.filterMap (fun k => l[k]?)).length = idxs.length := by
  intro idxs
  induction idxs with
  | nil => intro _; rfl
  | cons k rest ih =>
    intro h
    have hk : k < l.length := h k (List.mem_cons_self k rest)
    have hrest : ∀ m ∈ rest, m < l.length := fun m hm => h m (List.mem_cons_of_mem _ hm)
    simp [List.filterMap_cons, List.getElem?_eq_getElem hk, ih hrest]

theorem mem_filterMap_getElem {α : Type*} {l : List α} {idxs : List ℕ} {p : α}
    (h : p ∈ idxs.filterMap (fun k => l[k]?)) : p ∈ l := by
  rcases List.mem_filterMap.mp h with ⟨k, _, hk⟩
  exact List.getElem?_mem hk

theorem filterMap_getElem_range {α : Type*} :
    ∀ (l : List α), (List.range l.length).filterMap (fun k => l[k]?) = l := by
  intro l
  induction l with
  | nil => rfl
  | cons a rest ih =>
    have h1 : (List.range rest.length).filterMap (fun k => (a :: rest)[k + 1]?)
        = (List.range rest.length).filterMap (fun k => rest[k]?) := by
      apply List.filterMap_congr
      intro k _
      simp
    calc (List.range (a :: rest).length).filterMap (fun k => (a :: rest)[k]?)
        = (0 :: (List.range rest.length).map Nat.succ).filterMap
            (fun k => (a :: rest)[k]?) := by
          rw [List.length_cons, List.range_succ_eq_map]
      _ = a :: ((List.range rest.length).map Nat.succ).filterMap
            (fun k => (a :: rest)[k]?) := by simp [List.filterMap_cons]
      _ = a :: (List.range rest.length).filterMap (fun k => (a :: rest)[k + 1]?) := by
          rw [List.filterMap_map]; rfl
      _ = a :: rest := by rw [h1, ih]

theorem length_filter_not_mem :
    ∀ (E : ℕ) (D : List ℕ), D.Nodup → (∀ k ∈ D, k < E) →
      ((List.range E).filter (fun k => decide (¬ (k ∈ D)))).length = E - D.length := by
  intro E D hnd hlt
  have hperm : ((List.range E).filter (fun k => decide (k ∈ D))).Perm D := by
    rw [List.perm_ext_iff_of_nodup ((List.nodup_range E).filter _) hnd]
    intro a
    simp only [List.mem_filter, List.mem_range, decide_eq_true_eq]
    exact ⟨fun h => h.2, fun h => ⟨hlt a h, h⟩⟩
  have hsplit := List.length_eq_length_filter_add (l := List.range E)
    (fun k => decide (k ∈ D))
  have hnot : ((List.range E).filter (fun k => !decide (k ∈ D)))
      = ((List.range E).filter (fun k => decide (¬ (k ∈ D)))) := by
    apply List.filter_congr
    intro k _
    simp
  rw [List.length_range, hperm.length_eq, hnot] at hsplit
  omega

theorem sampleNeg_length (reject : ℕ × ℕ → List (ℕ × ℕ) → Bool) (target : ℕ) :
    ∀ (stream acc res : List (ℕ × ℕ)), acc.length ≤ target →
      sampleNeg reject target acc stream = some res → res.length = target := by
  intro stream
  induction stream with
  | nil =>
    intro acc res hle h
    rw [sampleNeg] at h
    by_cases hc : target ≤ acc.length
    · rw [if_pos hc] at h
      cases h
      omega
    · rw [if_neg hc] at h
      cases h
  | cons p rest ih =>
    intro acc res hle h
    rw [sampleNeg] at h
    by_cases hc : target ≤ acc.length
    · rw [if_pos hc] at h
      cases h
      omega
    · rw [if_neg hc] at h
      by_cases hr : reject p acc
      · rw [if_pos hr] at h
        exact ih acc res hle h
      · rw [if_neg hr] at h
        refine ih (acc ++ [p]) res ?_ h
        simp only [List.length_append, List.length_cons, List.length_nil]
        omega

theorem sampleNeg_accept (reject : ℕ × ℕ → List (ℕ × ℕ) → Bool) (target : ℕ) :
    ∀ (stream acc res : List (ℕ × ℕ)),
      sampleNeg reject target acc stream = some res →
      ∀ p ∈ res, p ∈ acc ∨ ∃ acc', reject p acc' = false := by
  intro stream
  induction stream with
  | nil =>
    intro acc res h p hp
    rw [sampleNeg] at h
    by_cases hc : target ≤ acc.length
    · rw [if_pos hc] at h
      cases h
      exact Or.inl hp
    · rw [if_neg hc] at h
      cases h
  | cons q rest ih =>
    intro acc res h p hp
    rw [sampleNeg] at h
    by_cases hc : target ≤ acc.length
    · rw [if_pos hc] at h
      cases h
      exact Or.inl hp
    · rw [if_neg hc] at h
      by_cases hr : reject q acc
      · rw [if_pos hr] at h
        exact ih acc res h p hp
      · rw [if_neg hr] at h
        rcases ih (acc ++ [q]) res h p hp with hmem | hex
        · rcases List.mem_append.mp hmem with h1 | h2
          · exact Or.inl h1
          · have : p = q := by simpa using h2
            subst this
            exact Or.inr ⟨acc, Bool.not_eq_true _ ▸ by simpa using hr⟩
        · exact Or.inr hex

theorem mem_triuEdges {n : ℕ} {a : ℕ → ℕ → ℕ} {p : ℕ × ℕ} :
    p ∈ triuEdges n a ↔ p.1 < n ∧ p.2 < n ∧ p.1 ≤ p.2 ∧ a p.1 p.2 ≠ 0 := by
  cases p with
  | mk i j =>
    simp only [triuEdges, List.mem_flatMap, List.mem_map, List.mem_filter,
      List.mem_range, decide_eq_true_eq]
    constructor
    · rintro ⟨i', hi', j', ⟨hj', hle, hne⟩, hpair⟩
      cases hpair
      exact ⟨hi', hj', hle, hne⟩
    · rintro ⟨hi, hj, hle, hne⟩
      exact ⟨i, hi, j, ⟨hj, hle, hne⟩, rfl⟩

theorem mem_allCoords {n : ℕ} {a : ℕ → ℕ → ℕ} {p : ℕ × ℕ} :
    p ∈ allCoords n a ↔ p.1 < n ∧ p.2 < n ∧ a p.1 p.2 ≠ 0 := by
  cases p with
  | mk i j =>
    simp only [allCoords, List.mem_flatMap, List.mem_map, List.mem_filter,
      List.mem_range, decide_eq_true_eq]
    constructor
    · rintro ⟨i', hi', j', ⟨hj', hne⟩, hpair⟩
      cases hpair
      exact ⟨hi', hj', hne⟩
    · rintro ⟨hi, hj, hne⟩
      exact ⟨i, hi, j, ⟨hj, hne⟩, rfl⟩

theorem triuEdges_subset_allCoords {n : ℕ} {a : ℕ → ℕ → ℕ} {p : ℕ × ℕ}
    (h : p ∈ triuEdges n a) : p ∈ allCoords n a := by
  rcases mem_triuEdges.mp h with ⟨h1, h2, _, h4⟩
  exact mem_allCoords.mpr ⟨h1, h2, h4⟩

theorem adjNoDiag_symm {adj : ℕ → ℕ → ℕ} {n : ℕ}
    (hsym : ∀ i < n, ∀ j < n, adj i j = adj j i) :
    ∀ i < n, ∀ j < n, adjNoDiag adj i j = adjNoDiag adj j i := by
  intro i hi j hj
  unfold adjNoDiag
  by_cases h : i = j
  · subst h
    simp
  · rw [if_neg h, if_neg (fun hh => h hh.symm), hsym i hi j hj]

theorem swap_mem_allCoords {n : ℕ} {a : ℕ → ℕ → ℕ} {p : ℕ × ℕ}
    (hsym : ∀ i < n, ∀ j < n, a i j = a j i)
    (h : p ∈ allCoords n a) : (p.2, p.1) ∈ allCoords n a := by
  rcases mem_allCoords.mp h with ⟨h1, h2, h3⟩
  refine mem_allCoords.mpr ⟨h2, h1, ?_⟩
  rw [hsym p.2 h2 p.1 h1]
  exact h3

theorem maskTestEdges_inv {n : ℕ} {adj : ℕ → ℕ → ℕ} {perm : List ℕ}
    {ts vs : List (ℕ × ℕ)} {res : SplitResult}
    (h : maskTestEdges n adj perm ts vs = some res) :
    res.trainEdges = trainEdgesOf n adj perm ∧
    res.valEdges = valEdgesOf n adj perm ∧
    res.testEdges = testEdgesOf n adj perm ∧
    sampleNeg (testReject (allCoords n (adjNoDiag adj)))
      (testEdgesOf n adj perm).length [] ts = some res.testEdgesFalse ∧
    sampleNeg (valReject (trainEdgesOf n adj perm) (valEdgesOf n adj perm))
      (valEdgesOf n adj perm).length [] vs = some res.valEdgesFalse := by
  unfold maskTestEdges at h
  split at h
  · cases h
  · rename_i testF h1
    split at h
    · cases h
    · rename_i valF h2
      cases h
      exact ⟨rfl, rfl, rfl, h1, h2⟩

theorem two_numSplit_le (n : ℕ) (adj : ℕ → ℕ → ℕ) :
    2 * numSplit n adj ≤ (splitEdges n adj).length := by
  have h1 : (splitEdges n adj).length / 50 ≤ (splitEdges n adj).length / 2 :=
    Nat.div_le_div_left (by norm_num) (by norm_num)
  have h2 : (splitEdges n adj).length / 2 * 2 ≤ (splitEdges n adj).length :=
    Nat.div_mul_le_self _ 2
  unfold numSplit
  omega

theorem length_valIdx {n : ℕ} {adj : ℕ → ℕ → ℕ} {perm : List ℕ}
    (hp : perm.Perm (List.range (splitEdges n adj).length)) :
    (valIdxOf n adj perm).length = numSplit n adj := by
  have hlen : perm.length = (splitEdges n adj).length := by
    simpa using hp.length_eq
  have h2 := two_numSplit_le n adj
  unfold valIdxOf
  rw [List.length_take, hlen]
  omega

theorem length_testIdx {n : ℕ} {adj : ℕ → ℕ → ℕ} {perm : List ℕ}
    (hp : perm.Perm (List.range (splitEdges n adj).length)) :
    (testIdxOf n adj perm).length = numSplit n adj := by
  have hlen : perm.length = (splitEdges n adj).length := by
    simpa using hp.length_eq
  have h2 := two_numSplit_le n adj
  unfold testIdxOf
  rw [List.length_take, List.length_drop, hlen]
  omega

theorem mem_perm_lt {n : ℕ} {adj : ℕ → ℕ → ℕ} {perm : List ℕ}
    (hp : perm.Perm (List.range (splitEdges n adj).length)) :
    ∀ k ∈ perm, k < (splitEdges n adj).length := by
  intro k hk
  exact List.mem_range.mp (hp.mem_iff.mp hk)

theorem valIdx_sublist (n : ℕ) (adj : ℕ → ℕ → ℕ) (perm : List ℕ) :
    (valIdxOf n adj perm).Sublist perm :=
  List.take_sublist _ _

theorem testIdx_sublist (n : ℕ) (adj : ℕ → ℕ → ℕ) (perm : List ℕ) :
    (testIdxOf n adj perm).Sublist perm :=
  (List.take_sublist _ _).trans (List.drop_sublist _ _)

theorem length_valEdges {n : ℕ} {adj : ℕ → ℕ → ℕ} {perm : List ℕ}
    (hp : perm.Perm (List.range (splitEdges n adj).length)) :
    (valEdgesOf n adj perm).length = numSplit n adj := by
  unfold valEdgesOf
  rw [length_filterMap_getElem (splitEdges n adj) (valIdxOf n adj perm)
    (fun k hk => mem_perm_lt hp k ((valIdx_sublist n adj perm).subset hk))]
  exact length_valIdx hp

theorem length_testEdges {n : ℕ} {adj : ℕ → ℕ → ℕ} {perm : List ℕ}
    (hp : perm.Perm (List.range (splitEdges n adj).length)) :
    (testEdgesOf n adj perm).length = numSplit n adj := by
  unfold testEdgesOf
  rw [length_filterMap_getElem (splitEdges n adj) (testIdxOf n adj perm)
    (fun k hk => mem_perm_lt hp k ((testIdx_sublist n adj perm).subset hk))]
  exact length_testIdx hp

theorem length_trainEdges {n : ℕ} {adj : ℕ → ℕ → ℕ} {perm : List ℕ}
    (hp : perm.Perm (List.range (splitEdges n adj).length)) :
    (trainEdgesOf n adj perm).length =
      (splitEdges n adj).length - 2 * numSplit n adj := by
  have hlen : perm.length = (splitEdges n adj).length := by
    simpa using hp.length_eq
  have h2 := two_numSplit_le n adj
  have hnd : perm.Nodup := hp.nodup_iff.mpr (List.nodup_range _)
  have htake : valIdxOf n adj perm ++ testIdxOf n adj perm
      = perm.take (numSplit n adj + numSplit n adj) :=
    (List.take_add perm (numSplit n adj) (numSplit n adj)).symm
  have hDperm : (testIdxOf n adj perm ++ valIdxOf n adj perm).Perm
      (perm.take (numSplit n adj + numSplit n adj)) :=
    htake ▸ List.perm_append_comm
  have hDnd : (testIdxOf n adj perm ++ valIdxOf n adj perm).Nodup :=
    hDperm.nodup_iff.mpr ((List.take_sublist _ _).nodup hnd)
  have hDlen : (testIdxOf n adj perm ++ valIdxOf n adj perm).length
      = 2 * numSplit n adj := by
    rw [hDperm.length_eq, List.length_take, hlen]
    omega
  have hDlt : ∀ k ∈ testIdxOf n adj perm ++ valIdxOf n adj perm,
      k < (splitEdges n adj).length := by
    intro k hk
    rcases List.mem_append.mp hk with hk | hk
    · exact mem_perm_lt hp k ((List.drop_sublist _ _).subset
        ((List.take_sublist _ _).subset hk))
    · exact mem_perm_lt hp k ((List.take_sublist _ _).subset hk)
  unfold trainEdgesOf
  have hfc : ((List.range (splitEdges n adj).length).filter
      (fun k => decide (¬ (k ∈ testIdxOf n adj perm ∨ k ∈ valIdxOf n adj perm))))
      = ((List.range (splitEdges n adj).length).filter
      (fun k => decide (¬ (k ∈ testIdxOf n adj perm ++ valIdxOf n adj perm)))) := by
    apply List.filter_congr
    intro k _
    simp [List.mem_append]
  rw [hfc]
  rw [length_filterMap_getElem _ _ (fun k hk => List.mem_range.mp (List.mem_filter.mp hk).1)]
  rw [length_filter_not_mem _ _ hDnd hDlt, hDlen]

theorem trainEdges_subset {n : ℕ} {adj : ℕ → ℕ → ℕ} {perm : List ℕ} {p : ℕ × ℕ}
    (h : p ∈ trainEdgesOf n adj perm) : p ∈ splitEdges n adj :=
  mem_filterMap_getElem h

theorem valEdges_subset {n : ℕ} {adj : ℕ → ℕ → ℕ} {perm : List ℕ} {p : ℕ × ℕ}
    (h : p ∈ valEdgesOf n adj perm) : p ∈ splitEdges n adj :=
  mem_filterMap_getElem h

theorem testEdges_subset {n : ℕ} {adj : ℕ → ℕ → ℕ} {perm : List ℕ} {p : ℕ × ℕ}
    (h : p ∈ testEdgesOf n adj perm) : p ∈ splitEdges n adj :=
  mem_filterMap_getElem h

/-! ### Claim theorems -/

/-- C4 (confirmed): for every input on which the split succeeds (the shuffle
produced a permutation `perm` of the edge indices and both negative-sampling
loops completed), `len(val_edges) = len(val_edges_false) = floor(E/50)`,
likewise for the test split, and `train_edges` holds the remaining
`E - 2*floor(E/50)` edges, where `E = (splitEdges n adj).length` is the
number of unique undirected edges of the (diagonal-stripped) input. -/
theorem split_sizing (n : ℕ) (adj : ℕ → ℕ → ℕ) (perm : List ℕ)
    (ts vs : List (ℕ × ℕ)) (res : SplitResult)
    (hp : perm.Perm (List.range (splitEdges n adj).length))
    (h : maskTestEdges n adj perm ts vs = some res) :
    res.valEdges.length = (splitEdges n adj).length / 50 ∧
    res.valEdgesFalse.length = (splitEdges n adj).length / 50 ∧
    res.testEdges.length = (splitEdges n adj).length / 50 ∧
    res.testEdgesFalse.length = (splitEdges n adj).length / 50 ∧
    res.trainEdges.length =
      (splitEdges n adj).length - 2 * ((splitEdges n adj).length / 50) := by
  obtain ⟨htr, hval, htest, hsm1, hsm2⟩ := maskTestEdges_inv h
  refine ⟨?_, ?_, ?_, ?_, ?_⟩
  · rw [hval]
    exact length_valEdges hp
  · rw [sampleNeg_length _ _ vs [] res.valEdgesFalse (Nat.zero_le _) hsm2]
    exact length_valEdges hp
  · rw [htest]
    exact length_testEdges hp
  · rw [sampleNeg_length _ _ ts [] res.testEdgesFalse (Nat.zero_le _) hsm1]
    exact length_testEdges hp
  · rw [htr]
    exact length_trainEdges hp

/-- Witness for C4 at a concrete 2-node, single-edge graph (here
`floor(E/50) = 0`, so both reserved splits are empty and all edges train). -/
theorem split_sizing_witness :
    ([0].Perm (List.range (splitEdges 2
      (fun i j => if (i = 0 ∧ j = 1) ∨ (i = 1 ∧ j = 0) then 1 else 0)).length)) ∧
    (maskTestEdges 2 (fun i j => if (i = 0 ∧ j = 1) ∨ (i = 1 ∧ j = 0) then 1 else 0)
      [0] [] [] = some ⟨[(0, 1)], [], [], [], []⟩) ∧
    ((SplitResult.mk [(0, 1)] [] [] [] []).valEdges.length =
      (splitEdges 2 (fun i j => if (i = 0 ∧ j = 1) ∨ (i = 1 ∧ j = 0) then 1 else 0)).length / 50 ∧
    (SplitResult.mk [(0, 1)] [] [] [] []).valEdgesFalse.length =
      (splitEdges 2 (fun i j => if (i = 0 ∧ j = 1) ∨ (i = 1 ∧ j = 0) then 1 else 0)).length / 50 ∧
    (SplitResult.mk [(0, 1)] [] [] [] []).testEdges.length =
      (splitEdges 2 (fun i j => if (i = 0 ∧ j = 1) ∨ (i = 1 ∧ j = 0) then 1 else 0)).length / 50 ∧
    (SplitResult.mk [(0, 1)] [] [] [] []).testEdgesFalse.length =
      (splitEdges 2 (fun i j => if (i = 0 ∧ j = 1) ∨ (i = 1 ∧ j = 0) then 1 else 0)).length / 50 ∧
    (SplitResult.mk [(0, 1)] [] [] [] []).trainEdges.length =
      (splitEdges 2 (fun i j => if (i = 0 ∧ j = 1) ∨ (i = 1 ∧ j = 0) then 1 else 0)).length -
        2 * ((splitEdges 2 (fun i j => if (i = 0 ∧ j = 1) ∨ (i = 1 ∧ j = 0) then 1 else 0)).length / 50)) :=
  ⟨by decide, by decide,
    split_sizing 2 _ [0] [] [] ⟨[(0, 1)], [], [], [], []⟩ (by decide) (by decide)⟩

set_option maxRecDepth 8000 in
/-- C1 (counterexample): on the 51-node star graph (centre `0`, edges
`(0,j)` for `j = 1..50`), with the identity shuffle and suitable random
draws, `mask_test_edges` succeeds and produces the validation negative
`(0,2)` which **is** the test positive edge — the validation-negative loop
never checks `test_edges`, so the universally quantified disjointness claim
fails. -/
theorem split_neg_disjoint_cex :
    (maskTestEdges 51
      (fun i j => if (i = 0 ∧ 1 ≤ j ∧ j ≤ 50) ∨ (j = 0 ∧ 1 ≤ i ∧ i ≤ 50) then 1 else 0)
      (List.range 50) [(1, 2)] [(0, 2)]).map SplitResult.valEdgesFalse
        = some [(0, 2)] ∧
    (maskTestEdges 51
      (fun i j => if (i = 0 ∧ 1 ≤ j ∧ j ≤ 50) ∨ (j = 0 ∧ 1 ≤ i ∧ i ≤ 50) then 1 else 0)
      (List.range 50) [(1, 2)] [(0, 2)]).map SplitResult.testEdges
        = some [(0, 2)] := by
  constructor
  · decide
  · decide

/-- C1 (amended): for every symmetric adjacency on which `mask_test_edges`
succeeds, every **test** negative pair is disjoint, in both orientations,
from `train_edges`, `val_edges` and `test_edges`; every **validation**
negative pair is disjoint, in both orientations, from `train_edges` and
`val_edges` — but (see `split_neg_disjoint_cex`) not necessarily from
`test_edges`. -/
theorem split_neg_disjoint (n : ℕ) (adj : ℕ → ℕ → ℕ) (perm : List ℕ)
    (ts vs : List (ℕ × ℕ)) (res : SplitResult)
    (hsym : ∀ i < n, ∀ j < n, adj i j = adj j i)
    (h : maskTestEdges n adj perm ts vs = some res) :
    (∀ p ∈ res.testEdgesFalse,
      (p ∉ res.trainEdges ∧ (p.2, p.1) ∉ res.trainEdges) ∧
      (p ∉ res.valEdges ∧ (p.2, p.1) ∉ res.valEdges) ∧
      (p ∉ res.testEdges ∧ (p.2, p.1) ∉ res.testEdges)) ∧
    (∀ p ∈ res.valEdgesFalse,
      (p ∉ res.trainEdges ∧ (p.2, p.1) ∉ res.trainEdges) ∧
      (p ∉ res.valEdges ∧ (p.2, p.1) ∉ res.valEdges)) := by
  obtain ⟨htr, hval, htest, hsm1, hsm2⟩ := maskTestEdges_inv h
  have hsymND := adjNoDiag_symm (n := n) hsym
  constructor
  · intro p hp
    rcases sampleNeg_accept _ _ ts [] res.testEdgesFalse hsm1 p hp with hmem | ⟨acc, hrej⟩
    · cases hmem
    · have hcomp : ((¬ p.1 = p.2 ∧ p ∉ allCoords n (adjNoDiag adj)) ∧
          (p.2, p.1) ∉ acc) ∧ p ∉ acc := by
        simpa [testReject] using hrej
      have hout : p ∉ allCoords n (adjNoDiag adj) := hcomp.1.1.2
      have houtSwap : (p.2, p.1) ∉ allCoords n (adjNoDiag adj) := by
        intro hsw
        exact hout (swap_mem_allCoords hsymND hsw)
      have block : ∀ q ∈ splitEdges n adj, p ≠ q ∧ (p.2, p.1) ≠ q := by
        intro q hq
        have hqAll : q ∈ allCoords n (adjNoDiag adj) := triuEdges_subset_allCoords hq
        exact ⟨fun he => hout (he ▸ hqAll), fun he => houtSwap (he ▸ hqAll)⟩
      rw [htr, hval, htest]
      refine ⟨⟨fun hm => (block p (trainEdges_subset hm)).1 rfl,
              fun hm => (block _ (trainEdges_subset hm)).2 rfl⟩,
             ⟨fun hm => (block p (valEdges_subset hm)).1 rfl,
              fun hm => (block _ (valEdges_subset hm)).2 rfl⟩,
             ⟨fun hm => (block p (testEdges_subset hm)).1 rfl,
              fun hm => (block _ (testEdges_subset hm)).2 rfl⟩⟩
  · intro p hp
    rcases sampleNeg_accept _ _ vs [] res.valEdgesFalse hsm2 p hp with hmem | ⟨acc, hrej⟩
    · cases hmem
    · have hcomp : (((((¬ p.1 = p.2 ∧ p ∉ trainEdgesOf n adj perm) ∧
          (p.2, p.1) ∉ trainEdgesOf n adj perm) ∧ p ∉ valEdgesOf n adj perm) ∧
          (p.2, p.1) ∉ valEdgesOf n adj perm) ∧ (p.2, p.1) ∉ acc) ∧ p ∉ acc := by
        simpa [valReject] using hrej
      rw [htr, hval]
      exact ⟨⟨hcomp.1.1.1.1.1.2, hcomp.1.1.1.1.2⟩, ⟨hcomp.1.1.1.2, hcomp.1.1.2⟩⟩

/-- Witness for the amended C1 at the 2-node single-edge graph. -/
theorem split_neg_disjoint_witness :
    (∀ i < 2, ∀ j < 2,
      (fun i j => if (i = 0 ∧ j = 1) ∨ (i = 1 ∧ j = 0) then 1 else 0) i j =
      (fun i j => if (i = 0 ∧ j = 1) ∨ (i = 1 ∧ j = 0) then 1 else 0) j i) ∧
    (maskTestEdges 2 (fun i j => if (i = 0 ∧ j = 1) ∨ (i = 1 ∧ j = 0) then 1 else 0)
      [0] [] [] = some ⟨[(0, 1)], [], [], [], []⟩) ∧
    ((∀ p ∈ (SplitResult.mk [(0, 1)] [] [] [] []).testEdgesFalse,
      (p ∉ (SplitResult.mk [(0, 1)] [] [] [] []).trainEdges ∧
        (p.2, p.1) ∉ (SplitResult.mk [(0, 1)] [] [] [] []).trainEdges) ∧
      (p ∉ (SplitResult.mk [(0, 1)] [] [] [] []).valEdges ∧
        (p.2, p.1) ∉ (SplitResult.mk [(0, 1)] [] [] [] []).valEdges) ∧
      (p ∉ (SplitResult.mk [(0, 1)] [] [] [] []).testEdges ∧
        (p.2, p.1) ∉ (SplitResult.mk [(0, 1)] [] [] [] []).testEdges)) ∧
    (∀ p ∈ (SplitResult.mk [(0, 1)] [] [] [] []).valEdgesFalse,
      (p ∉ (SplitResult.mk [(0, 1)] [] [] [] []).trainEdges ∧
        (p.2, p.1) ∉ (SplitResult.mk [(0, 1)] [] [] [] []).trainEdges) ∧
      (p ∉ (SplitResult.mk [(0, 1)] [] [] [] []).valEdges ∧
        (p.2, p.1) ∉ (SplitResult.mk [(0, 1)] [] [] [] []).valEdges))) :=
  ⟨by decide, by decide,
    split_neg_disjoint 2
      (fun i j => if (i = 0 ∧ j = 1) ∨ (i = 1 ∧ j = 0) then 1 else 0)
      [0] [] [] ⟨[(0, 1)], [], [], [], []⟩ (by decide) (by decide)⟩

/-- C2 (counterexample): on an empty graph (3 nodes, 0 edges)
`mask_test_edges` does **not** fail: it returns successfully with empty
validation/test splits (and the negative-sampling loops never draw a single
random pair — both streams are empty).  No `InsufficientEdgesError`, or any
other error path, exists in the source. -/
theorem insufficient_edges_cex :
    maskTestEdges 3 (fun _ _ => 0) [] [] [] = some ⟨[], [], [], [], []⟩ := by
  decide

/-- C2 (amended): whenever `floor(E/50) = 0` (for both splits — they use the
same expression), `mask_test_edges` terminates successfully without consuming
any random draws, returning empty validation/test positive and negative sets
and all `E` edges as training edges. -/
theorem small_graph_split (n : ℕ) (adj : ℕ → ℕ → ℕ) (perm : List ℕ)
    (h0 : numSplit n adj = 0) :
    maskTestEdges n adj perm [] [] = some ⟨splitEdges n adj, [], [], [], []⟩ := by
  have hvalIdx : valIdxOf n adj perm = [] := by
    unfold valIdxOf
    rw [h0, List.take_zero]
  have htestIdx : testIdxOf n adj perm = [] := by
    unfold testIdxOf
    rw [h0, List.take_zero]
  have hvalE : valEdgesOf n adj perm = [] := by
    unfold valEdgesOf
    rw [hvalIdx]
    rfl
  have htestE : testEdgesOf n adj perm = [] := by
    unfold testEdgesOf
    rw [htestIdx]
    rfl
  have htrainE : trainEdgesOf n adj perm = splitEdges n adj := by
    unfold trainEdgesOf
    rw [hvalIdx, htestIdx]
    have hftrue : ((List.range (splitEdges n adj).length).filter
        (fun k => decide (¬ (k ∈ ([] : List ℕ) ∨ k ∈ ([] : List ℕ)))))
        = List.range (splitEdges n adj).length := by
      apply List.filter_eq_self.mpr
      intro k _
      simp
    rw [hftrue, filterMap_getElem_range]
  unfold maskTestEdges
  rw [hvalE, htestE, htrainE]
  rfl

/-- Witness for the amended C2 at a concrete empty graph. -/
theorem small_graph_split_witness :
    numSplit 3 (fun _ _ => 0) = 0 ∧
    maskTestEdges 3 (fun _ _ => 0) [] [] []
      = some ⟨splitEdges 3 (fun _ _ => 0), [], [], [], []⟩ :=
  ⟨by decide, small_graph_split 3 (fun _ _ => 0) [] (by decide)⟩

theorem one_le_rowsumSelf (n : ℕ) (adj : ℕ → ℕ → ℕ) (i : ℕ) (hi : i < n) :
    1 ≤ rowsumSelf n adj i := by
  have hterm : adjSelf adj i i ≤ rowsumSelf n adj i :=
    Finset.single_le_sum (f := fun j => adjSelf adj i j)
      (fun j _ => Nat.zero_le _) (Finset.mem_range.mpr hi)
  have h1 : 1 ≤ adjSelf adj i i := by
    unfold adjSelf
    simp
  omega

theorem one_le_sqrt_rowsum (n : ℕ) (adj : ℕ → ℕ → ℕ) (i : ℕ) (hi : i < n) :
    1 ≤ Real.sqrt (rowsumSelf n adj i) := by
  rw [← Real.sqrt_one]
  apply Real.sqrt_le_sqrt
  exact_mod_cast one_le_rowsumSelf n adj i hi

/-- C8 (confirmed): for every input adjacency and every node `i < n`, the row
sum of `A + I` is at least `1`, so `np.power(rowsum, -0.5)` is applied to a
strictly positive number and no division by zero can occur in
`preprocess_graph` (the source has no explicit guard: the denominator is
simply always positive). -/
theorem preprocess_no_div_zero (n : ℕ) (adj : ℕ → ℕ → ℕ) (i : ℕ) (hi : i < n) :
    1 ≤ rowsumSelf n adj i ∧ (0 : ℝ) < Real.sqrt (rowsumSelf n adj i) := by
  refine ⟨one_le_rowsumSelf n adj i hi, ?_⟩
  have := one_le_sqrt_rowsum n adj i hi
  linarith

/-- Witness for C8 on a 1-node empty graph. -/
theorem preprocess_no_div_zero_witness :
    0 < 1 ∧ (1 ≤ rowsumSelf 1 (fun _ _ => 0) 0 ∧
      (0 : ℝ) < Real.sqrt (rowsumSelf 1 (fun _ _ => 0) 0)) :=
  ⟨Nat.zero_lt_one, preprocess_no_div_zero 1 (fun _ _ => 0) 0 Nat.zero_lt_one⟩

/-- C5 (confirmed): for every symmetric 0/1 adjacency with zero diagonal, the
normalized adjacency `D^{-1/2}(A+I)D^{-1/2}` of `preprocess_graph` is
symmetric with all entries in `[0,1]`, and the row of a node that is isolated
before self-loop augmentation has a single nonzero entry, of value `1`, on
the diagonal. -/
theorem preprocess_graph_props (n : ℕ) (adj : ℕ → ℕ → ℕ)
    (hsym : ∀ i < n, ∀ j < n, adj i j = adj j i)
    (hdiag : ∀ i < n, adj i i = 0)
    (h01 : ∀ i < n, ∀ j < n, adj i j ≤ 1)
    (i j : ℕ) (hi : i < n) (hj : j < n) :
    (normAdjEntry n adj i j = normAdjEntry n adj j i ∧
      0 ≤ normAdjEntry n adj i j ∧ normAdjEntry n adj i j ≤ 1) ∧
    ((∀ t < n, adj i t = 0) →
      normAdjEntry n adj i i = 1 ∧
      ∀ t < n, t ≠ i → normAdjEntry n adj i t = 0) := by
  have hsq : ∀ m, m < n → 1 ≤ Real.sqrt (rowsumSelf n adj m) :=
    fun m hm => one_le_sqrt_rowsum n adj m hm
  constructor
  · refine ⟨?_, ?_, ?_⟩
    · unfold normAdjEntry
      have hAS : adjSelf adj j i = adjSelf adj i j := by
        unfold adjSelf
        by_cases hij : i = j
        · subst hij
          rfl
        · rw [hsym j hj i hi]
          rw [if_neg (fun hh => hij hh.symm), if_neg hij]
      rw [hAS, mul_comm]
    · unfold normAdjEntry
      apply div_nonneg
      · exact_mod_cast Nat.zero_le _
      · exact mul_nonneg (Real.sqrt_nonneg _) (Real.sqrt_nonneg _)
    · unfold normAdjEntry
      have hnum : (adjSelf adj j i : ℝ) ≤ 1 := by
        have : adjSelf adj j i ≤ 1 := by
          unfold adjSelf
          by_cases hij : j = i
          · subst hij
            rw [hdiag j hj]
            simp
          · rw [if_neg hij]
            have := h01 j hj i hi
            omega
        exact_mod_cast this
      have hden : 1 ≤ Real.sqrt (rowsumSelf n adj i) * Real.sqrt (rowsumSelf n adj j) := by
        have h1 := hsq i hi
        have h2 := hsq j hj
        nlinarith
      have hdenpos : 0 < Real.sqrt (rowsumSelf n adj i) * Real.sqrt (rowsumSelf n adj j) := by
        linarith
      rw [div_le_one hdenpos]
      linarith
  · intro hiso
    have hrow : rowsumSelf n adj i = 1 := by
      unfold rowsumSelf adjSelf
      rw [Finset.sum_add_distrib]
      have hz : ∑ j ∈ Finset.range n, adj i j = 0 :=
        Finset.sum_eq_zero (fun t ht => hiso t (Finset.mem_range.mp ht))
      have hd : (∑ j ∈ Finset.range n, if i = j then 1 else 0) = 1 := by
        rw [Finset.sum_ite_eq (Finset.range n) i (fun _ => 1)]
        rw [if_pos (Finset.mem_range.mpr hi)]
      rw [hz, hd]
    constructor
    · unfold normAdjEntry
      rw [hrow]
      have hAii : adjSelf adj i i = 1 := by
        unfold adjSelf
        rw [hiso i hi]
        simp
      rw [hAii]
      norm_num
    · intro t ht hti
      unfold normAdjEntry
      have hAti : adjSelf adj t i = 0 := by
        unfold adjSelf
        rw [if_neg hti, hsym t ht i hi, hiso t ht]
      rw [hAti]
      simp

/-- Witness for C5 on a 2-node empty (all-isolated) graph. -/
theorem preprocess_graph_props_witness :
    (∀ i < 2, ∀ j < 2, (fun _ _ => (0 : ℕ)) i j = (fun _ _ => (0 : ℕ)) j i) ∧
    (∀ i < 2, (fun _ _ => (0 : ℕ)) i i = 0) ∧
    (∀ i < 2, ∀ j < 2, (fun _ _ => (0 : ℕ)) i j ≤ 1) ∧
    ((normAdjEntry 2 (fun _ _ => 0) 0 1 = normAdjEntry 2 (fun _ _ => 0) 1 0 ∧
      0 ≤ normAdjEntry 2 (fun _ _ => 0) 0 1 ∧ normAdjEntry 2 (fun _ _ => 0) 0 1 ≤ 1) ∧
    ((∀ t < 2, (fun _ _ => (0 : ℕ)) 0 t = 0) →
      normAdjEntry 2 (fun _ _ => 0) 0 0 = 1 ∧
      ∀ t < 2, t ≠ 0 → normAdjEntry 2 (fun _ _ => 0) 0 t = 0)) :=
  ⟨by decide, by decide, by decide,
    preprocess_graph_props 2 (fun _ _ => 0) (by decide) (by decide) (by decide)
      0 1 (by decide) (by decide)⟩

/-- C9 (confirmed): every entry drawn by `weight_variable_glorot` lies in the
closed interval `[-sqrt(6/(input_dim+output_dim)), sqrt(6/(input_dim+output_dim))]`
(the uniform draw lives in `[minval, maxval)`, a subset of the closed
interval).  Both layer weight matrices of `GCNModel.build` are created by
this same function, with shapes `[input_dim, hidden1]` and
`[hidden1, hidden2]`. -/
theorem glorot_bounds (inputDim outputDim : ℕ) (u : ℕ → ℕ → ℝ)
    (hu : ∀ i j, 0 ≤ u i j ∧ u i j < 1) (i j : ℕ) :
    -glorotRange inputDim outputDim ≤ weightVariableGlorot inputDim outputDim u i j ∧
    weightVariableGlorot inputDim outputDim u i j ≤ glorotRange inputDim outputDim := by
  have hr : 0 ≤ glorotRange inputDim outputDim := Real.sqrt_nonneg _
  obtain ⟨hu0, hu1⟩ := hu i j
  unfold weightVariableGlorot
  constructor
  · nlinarith
  · nlinarith

/-- Witness for C9 at shape `[2,3]` with the draw fixed at `0`. -/
theorem glorot_bounds_witness :
    (∀ i j : ℕ, 0 ≤ (fun _ _ => (0 : ℝ)) i j ∧ (fun _ _ => (0 : ℝ)) i j < 1) ∧
    (-glorotRange 2 3 ≤ weightVariableGlorot 2 3 (fun _ _ => 0) 0 0 ∧
      weightVariableGlorot 2 3 (fun _ _ => 0) 0 0 ≤ glorotRange 2 3) :=
  ⟨fun _ _ => ⟨le_refl 0, zero_lt_one⟩,
    glorot_bounds 2 3 (fun _ _ => 0) (fun _ _ => ⟨le_refl 0, zero_lt_one⟩) 0 0⟩

/-- C7 (confirmed): the inner-product decoder computes
`act(flatten(E_drop · E_dropᵀ))`; with the class's default activation
(`tf.nn.sigmoid`) this is the elementwise sigmoid of the flattened `n × n`
Gram matrix, while as instantiated in `GCNModel.build` the activation is
`lambda x: x` (and the decoder's default `dropout = 0`), so
`model.reconstructions` is exactly the raw flattened Gram matrix of the
embeddings — no sigmoid (and no dropout) is applied during training. -/
theorem decoder_modes (n k : ℕ) (dropout : ℝ) (u : ℕ → ℕ → ℝ)
    (e : ℕ → ℕ → ℝ) (hu : ∀ i j, 0 ≤ u i j) :
    innerProductDecoder sigmoidR dropout u n k e =
      (flattenSq n (gramEntry k (dropoutDense (1 - dropout) u e))).map sigmoidR ∧
    reconstructionsGCN n k u e = flattenSq n (gramEntry k e) := by
  constructor
  · rfl
  · unfold reconstructionsGCN innerProductDecoder
    have hfun : dropoutDense (1 - 0) u e = e := by
      funext i j
      unfold dropoutDense
      rw [if_pos (by have := hu i j; linarith)]
      norm_num
    rw [hfun]
    simp

/-- Witness for C7 on a 1-node, 1-dimensional embedding with the dropout
draw fixed at `0`. -/
theorem decoder_modes_witness :
    (∀ i j : ℕ, 0 ≤ (fun _ _ => (0 : ℝ)) i j) ∧
    (innerProductDecoder sigmoidR 0 (fun _ _ => 0) 1 1 (fun _ _ => 1) =
      (flattenSq 1 (gramEntry 1 (dropoutDense (1 - 0) (fun _ _ => 0) (fun _ _ => 1)))).map sigmoidR ∧
    reconstructionsGCN 1 1 (fun _ _ => 0) (fun _ _ => 1) =
      flattenSq 1 (gramEntry 1 (fun _ _ => 1))) :=
  ⟨fun _ _ => le_refl 0,
    decoder_modes 1 1 0 (fun _ _ => 0) (fun _ _ => 1) (fun _ _ => le_refl 0)⟩

/-- C10 (confirmed): the evaluator's label vector is
`len(edges_pos)` ones followed by `len(edges_pos)` zeros — the zero count is
taken from the positive list, not the negative one — so it has length
`2·len(edges_pos)` while the score vector has length
`len(edges_pos) + len(edges_neg)`; the two align (making the ROC-AUC and
average-precision inputs well formed) exactly when
`len(edges_pos) = len(edges_neg)`. -/
theorem roc_labels_shape (k : ℕ) (emb : ℕ → ℕ → ℝ)
    (edgesPos edgesNeg : List (ℕ × ℕ)) :
    rocLabels edgesPos =
      List.replicate edgesPos.length 1 ++ List.replicate edgesPos.length 0 ∧
    (rocLabels edgesPos).length = 2 * edgesPos.length ∧
    (rocPreds k emb edgesPos edgesNeg).length = edgesPos.length + edgesNeg.length ∧
    ((rocLabels edgesPos).length = (rocPreds k emb edgesPos edgesNeg).length ↔
      edgesPos.length = edgesNeg.length) := by
  have h1 : (rocLabels edgesPos).length = 2 * edgesPos.length := by
    unfold rocLabels
    rw [List.length_append, List.length_replicate, List.length_replicate]
    omega
  have h2 : (rocPreds k emb edgesPos edgesNeg).length
      = edgesPos.length + edgesNeg.length := by
    unfold rocPreds
    rw [List.length_append, List.length_map, List.length_map]
  refine ⟨rfl, h1, h2, ?_⟩
  rw [h1, h2]
  omega

/-- The value of `temp_train_loss` seen by the guard `j` iterations after a
loop state with counter `e` and current value `t`. -/
def tempFrom (loss : ℕ → ℚ) (e : ℕ) (t : ℚ) (j : ℕ) : ℚ :=
  if j = 0 then t else loss (e + j)

theorem tempFrom_succ (loss : ℕ → ℚ) (e : ℕ) (t : ℚ) (j : ℕ) :
    tempFrom loss e t (j + 1) = tempFrom loss (e + 1) (loss (e + 1)) j := by
  unfold tempFrom
  cases j with
  | zero => simp
  | succ m =>
    rw [if_neg (by omega), if_neg (by omega)]
    congr 1
    omega

theorem tempAt_eq_tempFrom (loss : ℕ → ℚ) (k : ℕ) :
    tempAt loss k = tempFrom loss 0 1 k := by
  unfold tempAt tempFrom
  cases k with
  | zero => rfl
  | succ m => simp

theorem trainGo_le (loss : ℕ → ℚ) :
    ∀ (fuel e : ℕ) (t : ℚ), trainGo loss fuel e t ≤ fuel := by
  intro fuel
  induction fuel with
  | zero => intro e t; rfl
  | succ m ih =>
    intro e t
    rw [trainGo]
    by_cases h : 1 / 1000 < t
    · rw [if_pos h]
      have := ih (e + 1) (loss (e + 1))
      omega
    · rw [if_neg h]
      omega

theorem trainGo_run (loss : ℕ → ℚ) :
    ∀ (fuel e : ℕ) (t : ℚ) (j : ℕ), j < trainGo loss fuel e t →
      1 / 1000 < tempFrom loss e t j := by
  intro fuel
  induction fuel with
  | zero =>
    intro e t j hj
    rw [trainGo] at hj
    omega
  | succ m ih =>
    intro e t j hj
    rw [trainGo] at hj
    by_cases h : 1 / 1000 < t
    · rw [if_pos h] at hj
      cases j with
      | zero => simpa [tempFrom] using h
      | succ j' =>
        rw [tempFrom_succ]
        exact ih (e + 1) (loss (e + 1)) j' (by omega)
    · rw [if_neg h] at hj
      omega

theorem trainGo_stop (loss : ℕ → ℚ) :
    ∀ (fuel e : ℕ) (t : ℚ), trainGo loss fuel e t < fuel →
      tempFrom loss e t (trainGo loss fuel e t) ≤ 1 / 1000 := by
  intro fuel
  induction fuel with
  | zero =>
    intro e t h
    omega
  | succ m ih =>
    intro e t h
    rw [trainGo] at h ⊢
    by_cases hc : 1 / 1000 < t
    · rw [if_pos hc] at h ⊢
      rw [tempFrom_succ]
      exact ih (e + 1) (loss (e + 1)) (by omega)
    · rw [if_neg hc] at h ⊢
      simpa [tempFrom] using le_of_not_lt hc

/-- C6 (confirmed): given that iteration `k` of the training loop ran (or
`k = 0`), iteration `k+1` runs if and only if `k < epochs` and the value of
`temp_train_loss` after iteration `k` — the loss the loop reported at epoch
`k`, with no smoothing, or the initial `1.0` for `k = 0` — exceeds `0.001`;
equivalently the loop stops at the first `k` with `k = epochs` or reported
loss `≤ 0.001`. -/
theorem train_loop_stop (epochs : ℕ) (loss : ℕ → ℚ) (k : ℕ)
    (hk : k ≤ trainIters epochs loss) :
    k + 1 ≤ trainIters epochs loss ↔ (k < epochs ∧ 1 / 1000 < tempAt loss k) := by
  unfold trainIters at *
  rw [tempAt_eq_tempFrom]
  constructor
  · intro h
    have hle := trainGo_le loss epochs 0 1
    exact ⟨by omega, trainGo_run loss epochs 0 1 k (by omega)⟩
  · rintro ⟨hke, ht⟩
    by_contra hcon
    have hTk : trainGo loss epochs 0 1 = k := by omega
    have := trainGo_stop loss epochs 0 1 (by omega)
    rw [hTk] at this
    linarith

/-- Witness for C6: two-epoch budget with constant reported loss `1`;
after the first iteration the guard admits the second. -/
theorem train_loop_stop_witness :
    1 ≤ trainIters 2 (fun _ => 1) ∧
    (1 + 1 ≤ trainIters 2 (fun _ => 1) ↔
      (1 < 2 ∧ 1 / 1000 < tempAt (fun _ => 1) 1)) :=
  ⟨by norm_num [trainIters, trainGo], train_loop_stop 2 (fun _ => 1) 1 (by norm_num [trainIters, trainGo])⟩

theorem list_range_map_sum (f : ℕ → ℕ) :
    ∀ n, ((List.range n).map f).sum = ∑ i ∈ Finset.range n, f i := by
  intro n
  induction n with
  | zero => rfl
  | succ m ih =>
    rw [List.range_succ, List.map_append, List.sum_append, Finset.sum_range_succ, ih]
    simp

theorem list_range_filter_length (p : ℕ → Bool) :
    ∀ n, ((List.range n).filter p).length =
      ∑ i ∈ Finset.range n, if p i = true then 1 else 0 := by
  intro n
  induction n with
  | zero => rfl
  | succ m ih =>
    rw [List.range_succ, List.filter_append, List.length_append,
      Finset.sum_range_succ, ih]
    by_cases hp : p m = true
    · simp [List.filter_cons, hp]
    · simp [List.filter_cons, hp]

theorem length_triuEdges_eq (n : ℕ) (a : ℕ → ℕ → ℕ) :
    (triuEdges n a).length =
      ∑ i ∈ Finset.range n, ∑ j ∈ Finset.range n,
        if i ≤ j ∧ a i j ≠ 0 then 1 else 0 := by
  unfold triuEdges
  rw [List.length_flatMap]
  have hmap : (List.map (List.length ∘ fun i =>
      ((List.range n).filter (fun j => decide (i ≤ j ∧ a i j ≠ 0))).map
        (fun j => (i, j))) (List.range n))
      = (List.range n).map (fun i =>
        ((List.range n).filter (fun j => decide (i ≤ j ∧ a i j ≠ 0))).length) := by
    apply List.map_congr_left
    intro i _
    simp
  rw [hmap, list_range_map_sum]
  apply Finset.sum_congr rfl
  intro i _
  rw [list_range_filter_length]
  apply Finset.sum_congr rfl
  intro j _
  simp

theorem adjSum_eq_twice_triu (n : ℕ) (adj : ℕ → ℕ → ℕ)
    (hsym : ∀ i < n, ∀ j < n, adj i j = adj j i)
    (hdiag : ∀ i < n, adj i i = 0)
    (h01 : ∀ i < n, ∀ j < n, adj i j ≤ 1) :
    adjSumOrig n adj = 2 * (triuEdges n adj).length := by
  have hpt : ∀ i ∈ Finset.range n, ∀ j ∈ Finset.range n,
      adj i j + adj j i =
        2 * ((if i ≤ j ∧ adj i j ≠ 0 then 1 else 0) +
             (if j ≤ i ∧ adj j i ≠ 0 then 1 else 0)) := by
    intro i hi j hj
    rw [Finset.mem_range] at hi hj
    have hs : adj j i = adj i j := hsym j hj i hi
    have hb : adj i j ≤ 1 := h01 i hi j hj
    rcases Nat.lt_trichotomy i j with h | h | h
    · rw [if_neg (fun hc : j ≤ i ∧ adj j i ≠ 0 => absurd hc.1 (by omega))]
      by_cases hz : adj i j = 0
      · rw [if_neg (fun hc : i ≤ j ∧ adj i j ≠ 0 => hc.2 hz)]
        omega
      · rw [if_pos ⟨by omega, hz⟩]
        omega
    · subst h
      have hd : adj i i = 0 := hdiag i hi
      rw [if_neg (fun hc : i ≤ i ∧ adj i i ≠ 0 => hc.2 hd)]
      omega
    · rw [if_neg (fun hc : i ≤ j ∧ adj i j ≠ 0 => absurd hc.1 (by omega))]
      by_cases hz : adj j i = 0
      · rw [if_neg (fun hc : j ≤ i ∧ adj j i ≠ 0 => hc.2 hz)]
        omega
      · rw [if_pos ⟨by omega, hz⟩]
        omega
  have hswap : (∑ i ∈ Finset.range n, ∑ j ∈ Finset.range n, adj j i)
      = adjSumOrig n adj := by
    unfold adjSumOrig
    exact Finset.sum_comm
  have huswap : (∑ i ∈ Finset.range n, ∑ j ∈ Finset.range n,
        (if j ≤ i ∧ adj j i ≠ 0 then 1 else 0))
      = ∑ i ∈ Finset.range n, ∑ j ∈ Finset.range n,
        (if i ≤ j ∧ adj i j ≠ 0 then 1 else 0) := Finset.sum_comm
  have hdouble : adjSumOrig n adj + adjSumOrig n adj
      = 2 * ((triuEdges n adj).length + (triuEdges n adj).length) := by
    nth_rewrite 2 [← hswap]
    unfold adjSumOrig
    rw [← Finset.sum_add_distrib]
    rw [Finset.sum_congr rfl
      (fun i (_ : i ∈ Finset.range n) => (Finset.sum_add_distrib
        (f := fun j => adj i j) (g := fun j => adj j i)).symm)]
    rw [Finset.sum_congr rfl (fun i hi => Finset.sum_congr rfl (fun j hj => hpt i hi j hj))]
    rw [Finset.sum_congr rfl (fun i (_ : i ∈ Finset.range n) => (Finset.mul_sum _ _ _).symm)]
    rw [← Finset.mul_sum]
    rw [Finset.sum_congr rfl (fun i (_ : i ∈ Finset.range n) => Finset.sum_add_distrib)]
    rw [Finset.sum_add_distrib, huswap, length_triuEdges_eq]
  omega

/-- C3 (counterexample): on the complete 3-node graph (a valid input; too
small to reserve validation/test edges, so all edges train), the code's
`pos_weight` — built from `num_edges = adj.sum() = 6` of the original
unsplit adjacency — is `(9-6)/6 = 1/2`, while the claimed `E` (entries set
in the training label matrix `adj_train + I`, which has all 9 entries set)
gives `(9-9)/9 = 0`.  The loss formula with `E` read from the training label
matrix therefore does not match the code. -/
theorem training_cost_E_cex :
    posWeightQ 3 (adjSumOrig 3 (fun i j => if i < 3 ∧ j < 3 ∧ i ≠ j then 1 else 0)) ≠
      posWeightQ 3 (labelEntries 3
        ((maskTestEdges 3 (fun i j => if i < 3 ∧ j < 3 ∧ i ≠ j then 1 else 0)
          [0, 1, 2] [] []).elim [] SplitResult.trainEdges)) := by
  have h1 : adjSumOrig 3 (fun i j => if i < 3 ∧ j < 3 ∧ i ≠ j then 1 else 0) = 6 := by
    decide
  have h2 : labelEntries 3
      ((maskTestEdges 3 (fun i j => if i < 3 ∧ j < 3 ∧ i ≠ j then 1 else 0)
        [0, 1, 2] [] []).elim [] SplitResult.trainEdges) = 9 := by
    decide
  rw [h1, h2]
  norm_num [posWeightQ]

/-- C3 (amended): the training loss is
`norm * mean(weighted_cross_entropy_with_logits(...))` with
`pos_weight = (N² - E)/E` and `norm = N²/(2·(N² - E))`, where `E` is
`adj.sum()` of the **original unsplit** adjacency — for a symmetric 0/1
zero-diagonal input, twice the number of unique undirected edges — and not
the number of entries set in the training label matrix
(see `training_cost_E_cex`). -/
theorem training_cost_formula (n : ℕ) (adj : ℕ → ℕ → ℕ)
    (logits targets : List ℝ)
    (hsym : ∀ i < n, ∀ j < n, adj i j = adj j i)
    (hdiag : ∀ i < n, adj i i = 0)
    (h01 : ∀ i < n, ∀ j < n, adj i j ≤ 1) :
    pipelineCost n adj logits targets =
      ((n : ℝ) ^ 2 / (2 * ((n : ℝ) ^ 2 - 2 * (triuEdges n adj).length))) *
        meanR (List.zipWith (fun l z => weightedCE
          (((n : ℝ) ^ 2 - 2 * (triuEdges n adj).length) /
            (2 * (triuEdges n adj).length)) l z) logits targets) := by
  have hS : adjSumOrig n adj = 2 * (triuEdges n adj).length :=
    adjSum_eq_twice_triu n adj hsym hdiag h01
  unfold pipelineCost optimizerCost
  rw [hS]
  have hnorm : ((normQ n (2 * (triuEdges n adj).length) : ℚ) : ℝ)
      = (n : ℝ) ^ 2 / (2 * ((n : ℝ) ^ 2 - 2 * (triuEdges n adj).length)) := by
    unfold normQ
    push_cast
    ring
  have hpw : ((posWeightQ n (2 * (triuEdges n adj).length) : ℚ) : ℝ)
      = ((n : ℝ) ^ 2 - 2 * (triuEdges n adj).length) /
          (2 * (triuEdges n adj).length) := by
    unfold posWeightQ
    push_cast
    ring
  rw [hnorm]
  simp only [hpw]

/-- Witness for the amended C3 at the complete 3-node graph with empty
logit/target lists. -/
theorem training_cost_formula_witness :
    (∀ i < 3, ∀ j < 3, (fun i j => if i < 3 ∧ j < 3 ∧ i ≠ j then 1 else 0) i j =
      (fun i j => if i < 3 ∧ j < 3 ∧ i ≠ j then 1 else 0) j i) ∧
    (∀ i < 3, (fun i j => if i < 3 ∧ j < 3 ∧ i ≠ j then 1 else 0) i i = 0) ∧
    (∀ i < 3, ∀ j < 3, (fun i j => if i < 3 ∧ j < 3 ∧ i ≠ j then 1 else 0) i j ≤ 1) ∧
    pipelineCost 3 (fun i j => if i < 3 ∧ j < 3 ∧ i ≠ j then 1 else 0) [] [] =
      ((3 : ℝ) ^ 2 / (2 * ((3 : ℝ) ^ 2 -
        2 * (triuEdges 3 (fun i j => if i < 3 ∧ j < 3 ∧ i ≠ j then 1 else 0)).length))) *
        meanR (List.zipWith (fun l z => weightedCE
          (((3 : ℝ) ^ 2 - 2 * (triuEdges 3
            (fun i j => if i < 3 ∧ j < 3 ∧ i ≠ j then 1 else 0)).length) /
            (2 * (triuEdges 3
              (fun i j => if i < 3 ∧ j < 3 ∧ i ≠ j then 1 else 0)).length)) l z) [] []) :=
  ⟨by decide, by decide, by decide,
    training_cost_formula 3 (fun i j => if i < 3 ∧ j < 3 ∧ i ≠ j then 1 else 0)
      [] [] (by decide) (by decide) (by decide)⟩

end GCN
